import Mathlib

/-!
Shallow embedding of `retrofit.py` (marcevrard/retrofitting).

The program post-processes word embeddings by iterative graph smoothing
(Faruqui et al. 2014 retrofitting).  We embed the two core functions:

* `read_lexicon` — parses whitespace-separated relation lines into a
  Python dict mapping a normalized source token to a *list* of normalized
  related tokens (last write wins on duplicate source keys);
* `retrofit` — the Gauss–Seidel style update loop over the intersection of
  the embedding vocabulary and the lexicon keys.

Modelling conventions:
* numpy float vectors become `List ℚ` (exact arithmetic stands in for
  IEEE floats; the claims are about the algebraic update rule);
* Python dicts become insertion-ordered association lists; assignment to
  an existing key replaces its value in place, assignment to a fresh key
  appends (`dictInsert`);
* Python exceptions (`IndexError` on `words[0]`, `KeyError` on dict
  subscripts) become `Option`, with `none` for an uncaught exception;
* `str.split()` / `str.strip()` / `str.lower()` are modelled structurally
  over the character list (`pySplit`, `pyLower`); the Unicode classes of
  `\d` and `\w` are approximated by their ASCII predicates
  (`Char.isDigit`, alphanumeric-or-underscore), which is faithful on the
  ASCII inputs the claims are about;
* Python `set` iteration order is unspecified, so the order in which the
  loop visits `loop_voc` is an explicit parameter `order`; theorems that
  need it assume `order` draws its words from the right sets.  The order
  of the inner neighbour accumulation does not affect the result over ℚ
  (addition is commutative), so it uses the canonical first-occurrence
  enumeration `List.dedup`/`List.filter` of the intersected set;
* `deepcopy` is the identity on values in the pure model; a second,
  heap-indexed model (`retrofitH`) keeps the store explicit so that the
  non-mutation claim about the caller's table is a real statement about
  which addresses are written.
-/

namespace Retro

/-- A numpy vector: a list of exact rationals. -/
abbrev Vec := List ℚ

/-- A Python dict of word vectors, as an insertion-ordered association list. -/
abbrev Table := List (String × Vec)

/-- A Python dict from word to its list of related words (`read_lexicon` output). -/
abbrev Lexicon := List (String × List String)

/-- Dict lookup `d[k]`: the value at the first (unique) matching key. -/
def lookup {α : Type} : List (String × α) → String → Option α
  | [], _ => none
  | kv :: rest, k => if kv.1 = k then some kv.2 else lookup rest k

/-- Dict assignment `d[k] = v`: replace in place if the key is present
(keeping insertion order), append otherwise — Python dict semantics. -/
def dictInsert {α : Type} (d : List (String × α)) (k : String) (v : α) :
    List (String × α) :=
  if (d.map Prod.fst).contains k then
    d.map (fun kv => if kv.1 = k then (k, v) else kv)
  else d ++ [(k, v)]

/-- `str.lower()`, character by character. -/
def pyLower (s : String) : String :=
  String.mk (s.toList.map Char.toLower)

/-- Helper for `pySplit`: splits a character list on whitespace runs,
accumulating the current in-progress token (reversed). -/
def pySplitGo : List Char → List Char → List (List Char)
  | [], cur => if cur.isEmpty then [] else [cur.reverse]
  | c :: rest, cur =>
    if c.isWhitespace then
      if cur.isEmpty then pySplitGo rest []
      else cur.reverse :: pySplitGo rest []
    else pySplitGo rest (c :: cur)

/-- Python `str.split()` with no separator: split on whitespace runs and
drop empty fields (which also subsumes the preceding `.strip()`). -/
def pySplit (s : String) : List String :=
  (pySplitGo s.toList []).map String.mk

/-- `\w`-membership used by `IS_NON_WORD = re.compile(r'\W+')`,
ASCII approximation: alphanumeric or underscore. -/
def isWordChar (c : Char) : Bool :=
  c.isAlphanum || c = '_'

/-- `norm_word` from retrofit.py: a token containing a digit becomes
`<num>` (`IS_NUMBER.search(word.lower())`), a token with no word
characters becomes `<punc>` (`IS_NON_WORD.sub('', word) == ''`),
otherwise the token is lower-cased. -/
def norm_word (word : String) : String :=
  if (pyLower word).toList.any Char.isDigit then "<num>"
  else if word.toList.all (fun c => !(isWordChar c)) then "<punc>"
  else pyLower word

/-- `line.lower().strip().split()` from `read_lexicon`. -/
def tokens (line : String) : List String :=
  pySplit (pyLower line)

/-- One iteration of the `read_lexicon` loop:
`lexicon[norm_word(words[0])] = [norm_word(word) for word in words[1:]]`.
An empty token list makes `words[0]` raise `IndexError`, hence `none`. -/
def parseLine (lexicon : Lexicon) (line : String) : Option Lexicon :=
  match tokens line with
  | [] => none
  | w :: rest => some (dictInsert lexicon (norm_word w) (rest.map norm_word))

/-- The `read_lexicon` loop over the file's lines, from a given dict. -/
def readLexiconGo : Lexicon → List String → Option Lexicon
  | lex, [] => some lex
  | lex, line :: rest =>
    match parseLine lex line with
    | none => none
    | some lex' => readLexiconGo lex' rest

/-- `read_lexicon`: fold the per-line assignment over all raw lines,
starting from the empty dict. -/
def read_lexicon (lines : List String) : Option Lexicon :=
  readLexiconGo [] lines

/-- `new_vec += other` / elementwise vector addition (numpy `+=` on
equal-length float arrays). -/
def vadd (a b : Vec) : Vec := List.zipWith (· + ·) a b

/-- `n_ctxt * wvecs[word]`: scalar times vector. -/
def smul (q : ℚ) (a : Vec) : Vec := a.map (fun x => q * x)

/-- `new_vec / (2 * n_ctxt)`: elementwise division by a scalar. -/
def vdiv (a : Vec) (q : ℚ) : Vec := a.map (fun x => x / q)

/-- The keys of a dict, in insertion order (`wvecs.keys()`). -/
def keysOf {α : Type} (d : List (String × α)) : List String :=
  d.map Prod.fst

/-- `wv_voc = set(new_wvecs.keys())`; since `new_wvecs = deepcopy(wvecs)`,
these are the keys of the input table. -/
def wvVoc (wvecs : Table) : List String := keysOf wvecs

/-- `ctxt_words = set(lexicon[word]).intersection(wv_voc)`: the related
words (duplicates collapsed, first occurrences kept) that have a vector. -/
def ctxtWords (rel : List String) (voc : List String) : List String :=
  rel.dedup.filter (fun u => voc.contains u)

/-- The inner loop `for pp_wrd in ctxt_words: new_vec += new_wvecs[pp_wrd]`:
accumulate the *current working* vectors of the context words onto `acc`;
`none` models the impossible `KeyError`. -/
def addNeighbors (new_wvecs : Table) : List String → Vec → Option Vec
  | [], acc => some acc
  | u :: us, acc =>
    (lookup new_wvecs u).bind (fun vu => addNeighbors new_wvecs us (vadd acc vu))

/-- The body of the word loop in `retrofit`: compute `ctxt_words`, skip the
word when it has no live neighbour, otherwise blend `n_ctxt` copies of the
*original* vector `wvecs[word]` with the current working vectors of the
neighbours and divide by `2 * n_ctxt`, storing the result in the working
dict. -/
def updateWord (wvecs : Table) (lexicon : Lexicon) (voc : List String)
    (new_wvecs : Table) (word : String) : Option Table :=
  (lookup lexicon word).bind (fun rel =>
    let ctxt := ctxtWords rel voc
    let n := ctxt.length
    if n = 0 then some new_wvecs
    else
      (lookup wvecs word).bind (fun orig =>
        (addNeighbors new_wvecs ctxt (smul (n : ℚ) orig)).map (fun new_vec =>
          dictInsert new_wvecs word (vdiv new_vec (2 * (n : ℚ))))))

/-- One pass `for word in loop_voc: ...` of the retrofit loop, visiting the
words of `order` left to right over an evolving working table
(Gauss–Seidel: later words see earlier in-pass updates). -/
def retrofitPass (wvecs : Table) (lexicon : Lexicon) (voc : List String) :
    List String → Table → Option Table
  | [], t => some t
  | w :: ws, t =>
    (updateWord wvecs lexicon voc t w).bind (fun t' => retrofitPass wvecs lexicon voc ws t')

/-- `for _ in range(n_iters)`: iterate `retrofitPass` a number of times. -/
def retrofitIter (wvecs : Table) (lexicon : Lexicon) (voc : List String)
    (order : List String) : Nat → Table → Option Table
  | 0, t => some t
  | Nat.succ k, t =>
    (retrofitPass wvecs lexicon voc order t).bind
      (fun t' => retrofitIter wvecs lexicon voc order k t')

/-- `retrofit(wvecs, lexicon, n_iters)`.  The working copy starts as the
(value-identical) deep copy of `wvecs`; `order` is the unspecified
iteration order of the Python set `loop_voc`; `Int.toNat` mirrors
`range(n_iters)` being empty for a non-positive count. -/
def retrofit (wvecs : Table) (lexicon : Lexicon) (n_iters : Int)
    (order : List String) : Option Table :=
  retrofitIter wvecs lexicon (wvVoc wvecs) order n_iters.toNat wvecs

/-! ### Checked-division variant

`updateWordSafe` is `updateWord` with the single difference that the
division `new_vec / (2 * n_ctxt)` goes through `vdivSafe`, which fails
instead of dividing when the divisor is zero.  Proving the checked chain
equal to the real one shows the division in step 3f is never executed
with `n_ctxt = 0`. -/

/-- Elementwise division that refuses a zero divisor. -/
def vdivSafe (a : Vec) (q : ℚ) : Option Vec :=
  if q = 0 then none else some (vdiv a q)

/-- `updateWord` with the division checked by `vdivSafe`. -/
def updateWordSafe (wvecs : Table) (lexicon : Lexicon) (voc : List String)
    (new_wvecs : Table) (word : String) : Option Table :=
  (lookup lexicon word).bind (fun rel =>
    let ctxt := ctxtWords rel voc
    let n := ctxt.length
    if n = 0 then some new_wvecs
    else
      (lookup wvecs word).bind (fun orig =>
        (addNeighbors new_wvecs ctxt (smul (n : ℚ) orig)).bind (fun new_vec =>
          (vdivSafe new_vec (2 * (n : ℚ))).map (fun v =>
            dictInsert new_wvecs word v))))

/-- `retrofitPass` built on the checked update. -/
def retrofitPassSafe (wvecs : Table) (lexicon : Lexicon) (voc : List String) :
    List String → Table → Option Table
  | [], t => some t
  | w :: ws, t =>
    (updateWordSafe wvecs lexicon voc t w).bind
      (fun t' => retrofitPassSafe wvecs lexicon voc ws t')

/-- `retrofitIter` built on the checked update. -/
def retrofitIterSafe (wvecs : Table) (lexicon : Lexicon) (voc : List String)
    (order : List String) : Nat → Table → Option Table
  | 0, t => some t
  | Nat.succ k, t =>
    (retrofitPassSafe wvecs lexicon voc order t).bind
      (fun t' => retrofitIterSafe wvecs lexicon voc order k t')

/-- `retrofit` built on the checked update. -/
def retrofitSafe (wvecs : Table) (lexicon : Lexicon) (n_iters : Int)
    (order : List String) : Option Table :=
  retrofitIterSafe wvecs lexicon (wvVoc wvecs) order n_iters.toNat wvecs

/-! ### Heap-indexed model

The pure model above erases the distinction between mutating a vector
that the caller's dict points to and rebinding an entry of the working
dict.  To state the non-mutation claim honestly, this second translation
keeps the numpy arrays in an explicit store: an address is an index into
a list of vectors, `deepcopy` allocates fresh copies, `new_vec += ...`
writes in place at `new_vec`'s address, and `n * wvecs[word]` and
`new_vec / (2 * n)` allocate fresh arrays, exactly as in Python/numpy. -/

/-- The store of numpy arrays; an address is an index, allocation appends. -/
abbrev Heap := List Vec

/-- A Python dict of word vectors, each entry a reference into the heap. -/
abbrev RefTable := List (String × Nat)

/-- Dereference an address (out-of-range reads are junk, never produced). -/
def heapGet (h : Heap) (a : Nat) : Vec := h.getD a []

/-- In-place array write at an address. -/
def heapSet (h : Heap) (a : Nat) (v : Vec) : Heap := h.set a v

/-- `deepcopy(wvecs)` over the store: copy each entry's array to a fresh
address, keeping the key order. -/
def deepcopyGo : Heap → RefTable → RefTable → Heap × RefTable
  | h, acc, [] => (h, acc)
  | h, acc, (w, a) :: rest => deepcopyGo (h ++ [heapGet h a]) (acc ++ [(w, h.length)]) rest

/-- `new_wvecs = deepcopy(wvecs)`. -/
def deepcopy (h : Heap) (d : RefTable) : Heap × RefTable :=
  deepcopyGo h [] d

/-- Heap version of the neighbour loop: `new_vec += new_wvecs[pp_wrd]`
mutates the array at `aNew` in place, once per context word. -/
def addNeighborsH (workD : RefTable) (aNew : Nat) : List String → Heap → Option Heap
  | [], h => some h
  | u :: us, h =>
    (lookup workD u).bind (fun aU =>
      addNeighborsH workD aNew us (heapSet h aNew (vadd (heapGet h aNew) (heapGet h aU))))

/-- Heap version of the word-update body: allocate `n * wvecs[word]`,
accumulate neighbours in place, allocate the quotient, and rebind the
working dict's entry for `word` to the quotient's address. -/
def updateWordH (origD : RefTable) (lexicon : Lexicon) (voc : List String)
    (st : Heap × RefTable) (word : String) : Option (Heap × RefTable) :=
  (lookup lexicon word).bind (fun rel =>
    let ctxt := ctxtWords rel voc
    let n := ctxt.length
    if n = 0 then some st
    else
      (lookup origD word).bind (fun aOrig =>
        let aNew := st.1.length
        let h1 := st.1 ++ [smul (n : ℚ) (heapGet st.1 aOrig)]
        (addNeighborsH st.2 aNew ctxt h1).map (fun h2 =>
          (h2 ++ [vdiv (heapGet h2 aNew) (2 * (n : ℚ))],
            dictInsert st.2 word h2.length))))

/-- Heap version of one pass over the loop set. -/
def retrofitPassH (origD : RefTable) (lexicon : Lexicon) (voc : List String) :
    List String → Heap × RefTable → Option (Heap × RefTable)
  | [], st => some st
  | w :: ws, st =>
    (updateWordH origD lexicon voc st w).bind
      (fun st' => retrofitPassH origD lexicon voc ws st')

/-- Heap version of the iteration loop. -/
def retrofitIterH (origD : RefTable) (lexicon : Lexicon) (voc : List String)
    (order : List String) : Nat → Heap × RefTable → Option (Heap × RefTable)
  | 0, st => some st
  | Nat.succ k, st =>
    (retrofitPassH origD lexicon voc order st).bind
      (fun st' => retrofitIterH origD lexicon voc order k st')

/-- Heap version of `retrofit`: deep-copy the caller's table, then run the
iterations on the working copy while reading originals through `origD`. -/
def retrofitH (h : Heap) (origD : RefTable) (lexicon : Lexicon) (n_iters : Int)
    (order : List String) : Option (Heap × RefTable) :=
  let hd := deepcopy h origD
  retrofitIterH origD lexicon (keysOf hd.2) order n_iters.toNat hd

/-- `h` extends `h0`: the store grew from `h0` by appends and writes
strictly above `h0.length`, leaving `h0`'s cells intact. -/
def HeapGrows (h0 h : Heap) : Prop := ∃ r, h = h0 ++ r

/-! ## Theorems -/

/-- An `order` made only of lexicon keys (as `loop_voc` always is) never
makes a pass fail by `KeyError` on an *empty* working vocabulary: every
context set is empty, so every word is skipped. -/
theorem retrofitIter_nil_order (wvecs : Table) (lexicon : Lexicon) (voc : List String)
    (k : Nat) (t : Table) : retrofitIter wvecs lexicon voc [] k t = some t := by
  induction k with
  | zero => rfl
  | succ k ih => simpa [retrofitIter, retrofitPass] using ih

/-- C5: with an iteration count of zero, `range(n_iters)` is empty, no pass
runs, and `retrofit` returns (the deep copy of) the input table unchanged:
same keys, same order, same vectors. -/
theorem retrofit_zero_iters (wvecs : Table) (lexicon : Lexicon) (order : List String) :
    retrofit wvecs lexicon 0 order = some wvecs := rfl

/-- C10: a negative iteration count makes `range(n_iters)` empty exactly as
a zero count does, so `retrofit` raises nothing and returns (the deep copy
of) the input table unchanged. -/
theorem retrofit_negative_iters (wvecs : Table) (lexicon : Lexicon) (n : Int)
    (order : List String) (hn : n < 0) :
    retrofit wvecs lexicon n order = some wvecs := by
  unfold retrofit
  rw [Int.toNat_eq_zero.mpr (le_of_lt hn)]
  rfl

theorem retrofit_negative_iters_witness :
    retrofit [("a", [1, 0])] [("a", ["a"])] (-7) ["a"] = some [("a", [1, 0])] :=
  retrofit_negative_iters [("a", [1, 0])] [("a", ["a"])] (-7) ["a"] (by decide)

/-- C3 counterexample: on an empty embedding table `retrofit` does *not*
fail: the loop vocabulary is empty, every pass is a no-op, and the empty
table is returned. -/
theorem retrofit_empty_table_counterexample :
    retrofit [] [("a", ["b"])] 5 [] = some [] := rfl

/-- C3 amended: on an empty embedding table `retrofit` raises no error and
returns the empty table (the loop set, hence the visiting order, is empty:
no division context is ever formed). -/
theorem retrofit_empty_table (lexicon : Lexicon) (n : Int) :
    retrofit [] lexicon n [] = some [] :=
  retrofitIter_nil_order [] lexicon (wvVoc []) n.toNat []

/-- `read_lexicon` succeeds on any list of lines each of which has at
least one token. -/
theorem readLexiconGo_total (lines : List String)
    (h : ∀ l ∈ lines, tokens l ≠ []) (lex : Lexicon) :
    (readLexiconGo lex lines).isSome := by
  induction lines generalizing lex with
  | nil => rfl
  | cons line rest ih =>
    have hl : tokens line ≠ [] := h line (List.mem_cons_self line rest)
    unfold readLexiconGo parseLine
    cases htok : tokens line with
    | nil => exact absurd htok hl
    | cons w ws =>
      exact ih (fun l hl' => h l (List.mem_cons_of_mem _ hl')) _

/-- C2 counterexample: a blank line is *not* tolerated: `words[0]` raises
`IndexError` (the split of an empty line is empty), so `read_lexicon`
fails hard even when every other line is well formed. -/
theorem read_lexicon_blank_line_counterexample :
    read_lexicon ["dog cat", ""] = none := by decide

/-- C2 amended: single-token lines are tolerated silently and produce an
empty related-set for the key, and `read_lexicon` never fails on input
whose lines all have at least one token; but a blank (whitespace-only)
line makes `words[0]` raise `IndexError` — a hard failure. -/
theorem read_lexicon_anomalies :
    (∀ (lex : Lexicon) (line w : String), tokens line = [w] →
        parseLine lex line = some (dictInsert lex (norm_word w) [])) ∧
    (∀ lines : List String, (∀ l ∈ lines, tokens l ≠ []) →
        (read_lexicon lines).isSome) ∧
    (∀ (lex : Lexicon) (line : String), tokens line = [] →
        parseLine lex line = none) := by
  refine ⟨?_, ?_, ?_⟩
  · intro lex line w htok
    unfold parseLine
    rw [htok]
    rfl
  · intro lines h
    exact readLexiconGo_total lines h []
  · intro lex line htok
    unfold parseLine
    rw [htok]

theorem read_lexicon_anomalies_witness :
    parseLine [] "Hello" = some [("hello", [])] ∧
      (read_lexicon ["a b", "c"]).isSome ∧ parseLine [("a", ["b"])] "  " = none := by
  refine ⟨?_, ?_, ?_⟩
  · have h := read_lexicon_anomalies.1 [] "Hello" "hello" (by decide)
    simpa using h
  · exact read_lexicon_anomalies.2.1 ["a b", "c"] (by decide)
  · exact read_lexicon_anomalies.2.2 [("a", ["b"])] "  " (by decide)

/-- C8 counterexample: the builder stores the related words of a line as a
*list*, not a set: the line `a b b` stores the collection `["b", "b"]`,
which repeats the key `b`. -/
theorem read_lexicon_duplicates_counterexample :
    read_lexicon ["a b b"] = some [("a", ["b", "b"])] ∧
      ¬ List.Nodup ["b", "b"] := by
  constructor
  · decide
  · decide

/-- C8 amended: the builder associates each normalized source token with
the *list* of normalized related tokens of its last defining line, with
duplicates preserved; duplicates are collapsed only when the engine later
forms the neighbour context `set(lexicon[word]).intersection(wv_voc)`,
whose enumeration (`ctxtWords`) never repeats a key. -/
theorem read_lexicon_stores_lists :
    (∀ (lex : Lexicon) (line w : String) (rest : List String),
        tokens line = w :: rest →
        parseLine lex line = some (dictInsert lex (norm_word w) (rest.map norm_word))) ∧
    (∀ rel voc : List String, List.Nodup (ctxtWords rel voc)) := by
  constructor
  · intro lex line w rest htok
    unfold parseLine
    rw [htok]
  · intro rel voc
    exact (List.nodup_dedup rel).filter _

theorem read_lexicon_stores_lists_witness :
    parseLine [] "a b b" = some [("a", ["b", "b"])] ∧
      List.Nodup (ctxtWords ["b", "b"] ["a", "b"]) := by
  constructor
  · have h := read_lexicon_stores_lists.1 [] "a b b" "a" ["b", "b"] (by decide)
    simpa using h
  · exact read_lexicon_stores_lists.2 ["b", "b"] ["a", "b"]

/-- C9: self-relations are not filtered: when a word's lexicon entry
contains the word itself and the word has a vector, the word is a member
of its own context `ctxt_words`, so the neighbour count includes the
self-edge and the list of summed working vectors includes the word's own
current working vector. -/
theorem self_relation_counted (rel voc : List String) (t : Table) (w : String)
    (hmem : w ∈ rel) (hvoc : voc.contains w) :
    w ∈ ctxtWords rel voc ∧ 1 ≤ (ctxtWords rel voc).length ∧
      ((lookup t w).getD []) ∈ (ctxtWords rel voc).map (fun u => (lookup t u).getD []) := by
  have h1 : w ∈ ctxtWords rel voc := by
    unfold ctxtWords
    rw [List.mem_filter]
    exact ⟨List.mem_dedup.mpr hmem, hvoc⟩
  refine ⟨h1, ?_, ?_⟩
  · exact Nat.succ_le_of_lt (List.length_pos.mpr (List.ne_nil_of_mem h1))
  · exact List.mem_map_of_mem _ h1

/-- A single word update agrees with its checked-division version: the
division is only reached in the branch where the context size is nonzero. -/
theorem updateWordSafe_eq (wvecs : Table) (lexicon : Lexicon) (voc : List String)
    (t : Table) (w : String) :
    updateWordSafe wvecs lexicon voc t w = updateWord wvecs lexicon voc t w := by
  unfold updateWordSafe updateWord
  cases lookup lexicon w with
  | none => rfl
  | some rel =>
    simp only [Option.some_bind]
    by_cases hn : (ctxtWords rel voc).length = 0
    · simp [hn]
    · have h2 : (2 * ((ctxtWords rel voc).length : ℚ)) ≠ 0 := by
        have : ((ctxtWords rel voc).length : ℚ) ≠ 0 := Nat.cast_ne_zero.mpr hn
        positivity
      simp only [hn, if_false]
      cases lookup wvecs w with
      | none => rfl
      | some orig =>
        simp only [Option.some_bind]
        cases addNeighbors t (ctxtWords rel voc) (smul ((ctxtWords rel voc).length : ℚ) orig) with
        | none => rfl
        | some nv => simp [vdivSafe, h2]

/-- One checked pass agrees with the real pass. -/
theorem retrofitPassSafe_eq (wvecs : Table) (lexicon : Lexicon) (voc : List String)
    (ws : List String) (t : Table) :
    retrofitPassSafe wvecs lexicon voc ws t = retrofitPass wvecs lexicon voc ws t := by
  induction ws generalizing t with
  | nil => rfl
  | cons w ws ih =>
    unfold retrofitPassSafe retrofitPass
    rw [updateWordSafe_eq]
    cases updateWord wvecs lexicon voc t w with
    | none => rfl
    | some t' => simpa using ih t'

/-- The checked iteration loop agrees with the real one. -/
theorem retrofitIterSafe_eq (wvecs : Table) (lexicon : Lexicon) (voc : List String)
    (order : List String) (k : Nat) (t : Table) :
    retrofitIterSafe wvecs lexicon voc order k t = retrofitIter wvecs lexicon voc order k t := by
  induction k generalizing t with
  | zero => rfl
  | succ k ih =>
    unfold retrofitIterSafe retrofitIter
    rw [retrofitPassSafe_eq]
    cases retrofitPass wvecs lexicon voc order t with
    | none => rfl
    | some t' => simpa using ih t'

/-- C6: division by zero is structurally unreachable in the update step:
running `retrofit` with every division routed through `vdivSafe` (which
fails instead of dividing by zero) produces exactly the same result as the
real `retrofit`, because a word whose intersected neighbour set is empty
is skipped before the division. -/
theorem retrofit_division_guarded (wvecs : Table) (lexicon : Lexicon) (n : Int)
    (order : List String) :
    retrofitSafe wvecs lexicon n order = retrofit wvecs lexicon n order :=
  retrofitIterSafe_eq wvecs lexicon (wvVoc wvecs) order n.toNat wvecs

/-- Appending visit orders sequences the passes: the words of `l2` are
processed on the working table produced by processing `l1` (Gauss–Seidel
within a pass). -/
theorem retrofitPass_append (wvecs : Table) (lexicon : Lexicon) (voc : List String)
    (l1 l2 : List String) (t : Table) :
    retrofitPass wvecs lexicon voc (l1 ++ l2) t =
      (retrofitPass wvecs lexicon voc l1 t).bind
        (fun t' => retrofitPass wvecs lexicon voc l2 t') := by
  induction l1 generalizing t with
  | nil => rfl
  | cons w ws ih =>
    simp only [List.cons_append, retrofitPass]
    cases updateWord wvecs lexicon voc t w with
    | none => rfl
    | some t' => simpa using ih t'

/-- When every context word has a working vector, the neighbour loop is the
pure left fold of elementwise addition of the current working vectors. -/
theorem addNeighbors_eq_foldl (t : Table) (us : List String) (acc : Vec)
    (h : ∀ u ∈ us, (lookup t u).isSome) :
    addNeighbors t us acc =
      some (us.foldl (fun a u => vadd a ((lookup t u).getD [])) acc) := by
  induction us generalizing acc with
  | nil => rfl
  | cons u us ih =>
    obtain ⟨vu, hvu⟩ := Option.isSome_iff_exists.mp (h u (List.mem_cons_self u us))
    unfold addNeighbors
    rw [hvu]
    simpa [hvu] using ih (vadd acc vu) (fun x hx => h x (List.mem_cons_of_mem _ hx))

/-- C1: the per-word update rule of each pass.  If the pass has already
processed the words of `pre` (turning the iteration-start table `t0` into
the current working table `t`), and the next word `w` has original vector
`orig` in the *caller's* table and a nonempty context `ctxt` of size `n`,
then the pass continues on `post` with `w` rebound to
`(n * orig + Σ_{u ∈ ctxt} working(u)) / (2 * n)`, where each `working(u)`
is read from the current in-pass table `t` — neighbours updated earlier in
the pass contribute their updated value, later ones their
previous-iteration value.  The second conjunct records that each iteration
of `retrofit` executes exactly such a pass. -/
theorem retrofit_update_rule (wvecs : Table) (lexicon : Lexicon) (voc : List String)
    (t0 t : Table) (pre post : List String) (w : String) (rel : List String) (orig : Vec)
    (hrel : lookup lexicon w = some rel)
    (horig : lookup wvecs w = some orig)
    (hpre : retrofitPass wvecs lexicon voc pre t0 = some t)
    (hne : ctxtWords rel voc ≠ [])
    (hnb : ∀ u ∈ ctxtWords rel voc, (lookup t u).isSome) :
    retrofitPass wvecs lexicon voc (pre ++ w :: post) t0 =
      retrofitPass wvecs lexicon voc post
        (dictInsert t w
          (vdiv
            ((ctxtWords rel voc).foldl (fun acc u => vadd acc ((lookup t u).getD []))
              (smul ((ctxtWords rel voc).length : ℚ) orig))
            (2 * ((ctxtWords rel voc).length : ℚ)))) ∧
    (∀ (k : Nat) (s : Table),
        retrofitIter wvecs lexicon voc (pre ++ w :: post) (k + 1) s =
          (retrofitPass wvecs lexicon voc (pre ++ w :: post) s).bind
            (fun s' => retrofitIter wvecs lexicon voc (pre ++ w :: post) k s')) := by
  constructor
  · rw [retrofitPass_append, hpre]
    show (updateWord wvecs lexicon voc t w).bind _ = _
    unfold updateWord
    rw [hrel]
    have hn0 : (ctxtWords rel voc).length ≠ 0 :=
      fun h => hne (List.length_eq_zero.mp h)
    simp only [Option.some_bind, hn0, if_false]
    rw [horig, Option.some_bind, addNeighbors_eq_foldl t _ _ hnb]
    rfl
  · intro k s
    rfl

theorem retrofit_update_rule_witness :
    retrofitPass [("a", [1, 0]), ("b", [0, 1])] [("a", ["b"])] ["a", "b"]
        (["a"] ++ []) [("a", [1, 0]), ("b", [0, 1])] =
      retrofitPass [("a", [1, 0]), ("b", [0, 1])] [("a", ["b"])] ["a", "b"] []
        (dictInsert [("a", [1, 0]), ("b", [0, 1])] "a"
          (vdiv
            ((ctxtWords ["b"] ["a", "b"]).foldl
              (fun acc u =>
                vadd acc ((lookup [("a", [(1 : ℚ), 0]), ("b", [0, 1])] u).getD []))
              (smul ((ctxtWords ["b"] ["a", "b"]).length : ℚ) [1, 0]))
            (2 * ((ctxtWords ["b"] ["a", "b"]).length : ℚ)))) :=
  (retrofit_update_rule [("a", [1, 0]), ("b", [0, 1])] [("a", ["b"])] ["a", "b"]
    [("a", [1, 0]), ("b", [0, 1])] [("a", [1, 0]), ("b", [0, 1])] [] [] "a" ["b"] [1, 0]
    (by decide) (by decide) rfl (by decide) (by decide)).1

/-- Assigning to a key that is already in a dict replaces its value in
place: the key list (and hence order and cardinality) is unchanged. -/
theorem keysOf_dictInsert {α : Type} (d : List (String × α)) (k : String) (v : α)
    (h : k ∈ keysOf d) : keysOf (dictInsert d k v) = keysOf d := by
  have hc : (d.map Prod.fst).contains k = true := List.elem_eq_true_of_mem h
  unfold dictInsert
  rw [if_pos hc]
  unfold keysOf
  rw [List.map_map]
  apply List.map_congr_left
  intro kv _
  by_cases hk : kv.1 = k
  · simp [hk]
  · simp [hk]

/-- A single word update never changes the key list of the working table,
provided the word being visited has an entry (as every loop-set word
does). -/
theorem updateWord_keys (wvecs : Table) (lexicon : Lexicon) (voc : List String)
    (t t' : Table) (w : String) (hw : w ∈ keysOf t)
    (h : updateWord wvecs lexicon voc t w = some t') : keysOf t' = keysOf t := by
  unfold updateWord at h
  cases hrel : lookup lexicon w with
  | none => rw [hrel] at h; simp at h
  | some rel =>
    rw [hrel, Option.some_bind] at h
    by_cases hn : (ctxtWords rel voc).length = 0
    · simp only [hn, if_true] at h
      cases h
      rfl
    · simp only [hn, if_false] at h
      cases horig : lookup wvecs w with
      | none => rw [horig] at h; simp at h
      | some orig =>
        rw [horig, Option.some_bind] at h
        cases hadd : addNeighbors t (ctxtWords rel voc)
            (smul ((ctxtWords rel voc).length : ℚ) orig) with
        | none => rw [hadd] at h; simp at h
        | some nv =>
          rw [hadd] at h
          simp only [Option.map_some'] at h
          cases h
          exact keysOf_dictInsert t w _ hw

/-- A full pass preserves the key list of the working table when the visit
order only contains table keys. -/
theorem retrofitPass_keys (wvecs : Table) (lexicon : Lexicon) (voc : List String)
    (ws : List String) (t t' : Table)
    (hws : ∀ w ∈ ws, w ∈ keysOf wvecs) (ht : keysOf t = keysOf wvecs)
    (h : retrofitPass wvecs lexicon voc ws t = some t') : keysOf t' = keysOf wvecs := by
  induction ws generalizing t with
  | nil =>
    cases h
    exact ht
  | cons w rest ih =>
    unfold retrofitPass at h
    cases hu : updateWord wvecs lexicon voc t w with
    | none => rw [hu] at h; simp at h
    | some t1 =>
      rw [hu, Option.some_bind] at h
      have hw : w ∈ keysOf t := by
        rw [ht]
        exact hws w (List.mem_cons_self w rest)
      have ht1 : keysOf t1 = keysOf wvecs :=
        (updateWord_keys wvecs lexicon voc t t1 w hw hu).trans ht
      exact ih t1 (fun x hx => hws x (List.mem_cons_of_mem _ hx)) ht1 h

/-- The iteration loop preserves the key list of the working table. -/
theorem retrofitIter_keys (wvecs : Table) (lexicon : Lexicon) (voc : List String)
    (order : List String) (k : Nat) (t t' : Table)
    (hws : ∀ w ∈ order, w ∈ keysOf wvecs) (ht : keysOf t = keysOf wvecs)
    (h : retrofitIter wvecs lexicon voc order k t = some t') : keysOf t' = keysOf wvecs := by
  induction k generalizing t with
  | zero =>
    cases h
    exact ht
  | succ k ih =>
    unfold retrofitIter at h
    cases hp : retrofitPass wvecs lexicon voc order t with
    | none => rw [hp] at h; exact absurd h (by simp)
    | some t1 =>
      rw [hp, Option.some_bind] at h
      exact ih t1 (retrofitPass_keys wvecs lexicon voc order t t1 hws ht hp) h

/-- C7: whenever `retrofit` returns a table and the visit order draws its
words from the table vocabulary (as `loop_voc` does), the returned table
has exactly the input's key list: same keys, same order, same
cardinality — no pass adds, removes, or reorders keys. -/
theorem retrofit_preserves_keys (wvecs : Table) (lexicon : Lexicon) (n : Int)
    (order : List String) (out : Table)
    (horder : ∀ w ∈ order, w ∈ wvVoc wvecs)
    (hrun : retrofit wvecs lexicon n order = some out) :
    keysOf out = keysOf wvecs :=
  retrofitIter_keys wvecs lexicon (wvVoc wvecs) order n.toNat wvecs out horder rfl hrun

theorem retrofit_preserves_keys_witness :
    keysOf [("a", [(1 : ℚ)/2, 1/2]), ("b", [0, 1])] = keysOf [("a", [(1 : ℚ), 0]), ("b", [0, 1])] :=
  retrofit_preserves_keys [("a", [1, 0]), ("b", [0, 1])] [("a", ["b"])] 1 ["a"]
    [("a", [1/2, 1/2]), ("b", [0, 1])] (by decide)
    (by simp [retrofit, retrofitIter, retrofitPass, updateWord, addNeighbors, lookup,
      ctxtWords, wvVoc, keysOf, dictInsert, vadd, smul, vdiv])

theorem heapGrows_refl (h : Heap) : HeapGrows h h :=
  ⟨[], (List.append_nil h).symm⟩

theorem heapGrows_trans (h0 h1 h2 : Heap) (hab : HeapGrows h0 h1) (hb : HeapGrows h1 h2) :
    HeapGrows h0 h2 := by
  obtain ⟨r1, rfl⟩ := hab
  obtain ⟨r2, rfl⟩ := hb
  exact ⟨r1 ++ r2, List.append_assoc h0 r1 r2⟩

theorem heapGrows_append (h0 h : Heap) (l : List Vec) (hg : HeapGrows h0 h) :
    HeapGrows h0 (h ++ l) := by
  obtain ⟨r, rfl⟩ := hg
  exact ⟨r ++ l, List.append_assoc h0 r l⟩

theorem heapGrows_length (h0 h : Heap) (hg : HeapGrows h0 h) : h0.length ≤ h.length := by
  obtain ⟨r, rfl⟩ := hg
  simp

/-- An in-place write at an address at or above the old store's size keeps
every old cell intact. -/
theorem heapGrows_set (h0 h : Heap) (a : Nat) (v : Vec) (hg : HeapGrows h0 h)
    (ha : h0.length ≤ a) : HeapGrows h0 (heapSet h a v) := by
  obtain ⟨r, rfl⟩ := hg
  exact ⟨r.set (a - h0.length) v, List.set_append_right a v ha⟩

/-- Cells below the old store's size read the same through a grown store. -/
theorem heapGrows_get (h0 h : Heap) (a : Nat) (hg : HeapGrows h0 h)
    (ha : a < h0.length) : heapGet h a = heapGet h0 a := by
  obtain ⟨r, rfl⟩ := hg
  exact List.getD_append h0 r [] a ha

/-- The neighbour loop only writes at `aNew`, so it preserves every store
cell below `h0.length` whenever `h0.length ≤ aNew`. -/
theorem addNeighborsH_grows (workD : RefTable) (aNew : Nat) (us : List String)
    (h0 : Heap) (ha : h0.length ≤ aNew) :
    ∀ (h h' : Heap), HeapGrows h0 h → addNeighborsH workD aNew us h = some h' →
      HeapGrows h0 h' := by
  induction us with
  | nil =>
    intro h h' hg he
    cases he
    exact hg
  | cons u us ih =>
    intro h h' hg he
    unfold addNeighborsH at he
    cases hu : lookup workD u with
    | none => rw [hu] at he; simp at he
    | some aU =>
      rw [hu, Option.some_bind] at he
      exact ih _ _ (heapGrows_set h0 h aNew _ hg ha) he

/-- A single heap-level word update allocates fresh arrays and writes only
at the fresh `new_vec` address, preserving every cell of `h0`. -/
theorem updateWordH_grows (origD : RefTable) (lexicon : Lexicon) (voc : List String)
    (st st' : Heap × RefTable) (w : String) (h0 : Heap)
    (hg : HeapGrows h0 st.1) (he : updateWordH origD lexicon voc st w = some st') :
    HeapGrows h0 st'.1 := by
  unfold updateWordH at he
  cases hrel : lookup lexicon w with
  | none => rw [hrel] at he; simp at he
  | some rel =>
    rw [hrel, Option.some_bind] at he
    by_cases hn : (ctxtWords rel voc).length = 0
    · simp only [hn, if_true] at he
      cases he
      exact hg
    · simp only [hn, if_false] at he
      cases horig : lookup origD w with
      | none => rw [horig] at he; simp at he
      | some aOrig =>
        rw [horig, Option.some_bind] at he
        cases hadd : addNeighborsH st.2 st.1.length (ctxtWords rel voc)
            (st.1 ++ [smul ((ctxtWords rel voc).length : ℚ) (heapGet st.1 aOrig)]) with
        | none => rw [hadd] at he; simp at he
        | some h2 =>
          rw [hadd] at he
          simp only [Option.map_some'] at he
          have hg2 : HeapGrows h0 h2 :=
            addNeighborsH_grows st.2 st.1.length (ctxtWords rel voc) h0
              (heapGrows_length h0 st.1 hg) _ h2
              (heapGrows_append h0 st.1 _ hg) hadd
          cases he
          exact heapGrows_append h0 h2 _ hg2

/-- A heap-level pass preserves every cell of `h0`. -/
theorem retrofitPassH_grows (origD : RefTable) (lexicon : Lexicon) (voc : List String)
    (ws : List String) (h0 : Heap) :
    ∀ (st st' : Heap × RefTable), HeapGrows h0 st.1 →
      retrofitPassH origD lexicon voc ws st = some st' → HeapGrows h0 st'.1 := by
  induction ws with
  | nil =>
    intro st st' hg he
    cases he
    exact hg
  | cons w ws ih =>
    intro st st' hg he
    unfold retrofitPassH at he
    cases hu : updateWordH origD lexicon voc st w with
    | none => rw [hu] at he; simp at he
    | some st1 =>
      rw [hu, Option.some_bind] at he
      exact ih st1 st' (updateWordH_grows origD lexicon voc st st1 w h0 hg hu) he

/-- The heap-level iteration loop preserves every cell of `h0`. -/
theorem retrofitIterH_grows (origD : RefTable) (lexicon : Lexicon) (voc : List String)
    (order : List String) (k : Nat) (h0 : Heap) :
    ∀ (st st' : Heap × RefTable), HeapGrows h0 st.1 →
      retrofitIterH origD lexicon voc order k st = some st' → HeapGrows h0 st'.1 := by
  induction k with
  | zero =>
    intro st st' hg he
    cases he
    exact hg
  | succ k ih =>
    intro st st' hg he
    unfold retrofitIterH at he
    cases hp : retrofitPassH origD lexicon voc order st with
    | none => rw [hp] at he; simp at he
    | some st1 =>
      rw [hp, Option.some_bind] at he
      exact ih st1 st' (retrofitPassH_grows origD lexicon voc order h0 st st1 hg hp) he

/-- `deepcopy` only allocates: the original store is a prefix of the new
one. -/
theorem deepcopyGo_grows (d : RefTable) :
    ∀ (h : Heap) (acc : RefTable), HeapGrows h (deepcopyGo h acc d).1 := by
  induction d with
  | nil => exact fun h acc => heapGrows_refl h
  | cons wa rest ih =>
    intro h acc
    obtain ⟨w, a⟩ := wa
    exact heapGrows_trans h (h ++ [heapGet h a]) _
      (heapGrows_append h h _ (heapGrows_refl h)) (ih _ _)

/-- C4: `retrofit` never mutates the caller's table.  In the heap model,
a successful run only grows the store (`deepcopy` and the vector
arithmetic allocate, and the in-place `new_vec += ...` writes at a fresh
address), so every array the caller's dict references — every cell that
existed before the call — still holds exactly its old value afterwards. -/
theorem retrofit_not_mutate_caller (h : Heap) (d : RefTable) (lexicon : Lexicon)
    (n : Int) (order : List String) (h' : Heap) (d' : RefTable)
    (hrun : retrofitH h d lexicon n order = some (h', d')) :
    HeapGrows h h' ∧
      ∀ (w : String) (a : Nat), lookup d w = some a → a < h.length →
        heapGet h' a = heapGet h a := by
  simp only [retrofitH] at hrun
  have hg : HeapGrows h h' :=
    retrofitIterH_grows d lexicon (keysOf (deepcopy h d).2) order n.toNat h
      (deepcopy h d) (h', d') (deepcopyGo_grows d h []) hrun
  exact ⟨hg, fun w a _ ha => heapGrows_get h h' a hg ha⟩

theorem retrofit_not_mutate_caller_witness :
    HeapGrows [[(1 : ℚ), 0], [0, 1]]
        [[(1 : ℚ), 0], [0, 1], [1, 0], [0, 1], [1, 1], [1/2, 1/2]] ∧
      ∀ (w : String) (a : Nat), lookup [("a", 0), ("b", 1)] w = some a →
        a < ([[(1 : ℚ), 0], [0, 1]] : Heap).length →
        heapGet [[(1 : ℚ), 0], [0, 1], [1, 0], [0, 1], [1, 1], [1/2, 1/2]] a =
          heapGet [[(1 : ℚ), 0], [0, 1]] a :=
  retrofit_not_mutate_caller [[(1 : ℚ), 0], [0, 1]] [("a", 0), ("b", 1)]
    [("a", ["b"])] 1 ["a"]
    [[(1 : ℚ), 0], [0, 1], [1, 0], [0, 1], [1, 1], [1/2, 1/2]] [("a", 5), ("b", 3)]
    (by simp [retrofitH, retrofitIterH, retrofitPassH, updateWordH, addNeighborsH,
      deepcopy, deepcopyGo, heapGet, heapSet, lookup, ctxtWords, keysOf, dictInsert,
      vadd, smul, vdiv])

theorem self_relation_counted_witness :
    "a" ∈ ctxtWords ["a"] ["a"] ∧ 1 ≤ (ctxtWords ["a"] ["a"]).length ∧
      ((lookup [("a", [(2 : ℚ)])] "a").getD []) ∈
        (ctxtWords ["a"] ["a"]).map (fun u => (lookup [("a", [(2 : ℚ)])] u).getD []) :=
  self_relation_counted ["a"] ["a"] [("a", [(2 : ℚ)])] "a" (by decide) (by decide)

end Retro
